import Mathlib

/-!
Verification of the TextAnalyzer frequency reporter (src/TextAnalyzer.cpp).

The program reads whitespace-delimited tokens from a file, counts the
frequency of each distinct token, records the 1-based overall word index at
which each distinct token first appears, and writes a CSV report: the top 50
tokens sorted by descending frequency (with rank and probability columns),
followed by the list of first-seen positions paired with unique-word ordinals.

The shallow embedding below models:
 * tokenization (`tokenize`) of the raw file contents, mirroring repeated
   `fileIn >> stem` extraction (skip whitespace, read maximal runs);
 * the counting loop (`countStep` / `countPass`) over the token stream,
   with the `unordered_map` modelled as an insertion-ordered association
   list (`hashFind` / `hashIncr`), since the claims under study do not
   depend on the hash iteration order;
 * the descending-frequency sort (`sortByFreq`, using the comparator
   `pairCompare` from the source; `std::sort` is unstable and the order of
   equal-frequency entries is unspecified, so any sort satisfying the
   comparator is a faithful model);
 * the report writer (`mkReport`), including the top-50 truncation, the
   rank column `i + 1`, and the probability column `frequency / twc`
   (real division modelled exactly over ℚ);
 * the output-file naming (`outputName`) and the driver loop (`mainRun`).
-/

namespace TextAnalyzer

/-- One token accumulator flush of the extraction loop: if the accumulator
(kept reversed) is nonempty it yields one completed token. -/
def flushTok (acc : List Char) : List String :=
  if acc.isEmpty then [] else [String.mk acc.reverse]

/-- Extraction of whitespace-delimited tokens from a character stream,
mirroring repeated `fileIn >> stem`: whitespace ends the current token (if
any), every other character extends it. -/
def tokensAux : List Char → List Char → List String
  | [], acc => flushTok acc
  | c :: cs, acc =>
    if c.isWhitespace then flushTok acc ++ tokensAux cs []
    else tokensAux cs (c :: acc)

/-- Token sequence of a file's contents (the `while (fileIn >> stem)` input). -/
def tokenize (s : String) : List String := tokensAux s.data []

/-- State of the counting loop: `totalWordCount`, the frequency table
`stemHash`, and the first-seen positions vector `uniqueWordCount`
(called UniqueWordPositions in the specification). -/
structure CountState where
  totalWordCount : Nat
  stemHash : List (String × Nat)
  uniqueWordCount : List Nat
deriving DecidableEq

/-- Lookup in the association-list model of `unordered_map`:
`stemHash.find(stem)`, `none` meaning `== stemHash.end()`. -/
def hashFind : List (String × Nat) → String → Option Nat
  | [], _ => none
  | (a, v) :: rest, k => if a = k then some v else hashFind rest k

/-- The update `stemHash[stem]++`: increment the count of an existing key,
or append the key with count 1 (operator[] default-inserts 0, then ++). -/
def hashIncr : List (String × Nat) → String → List (String × Nat)
  | [], k => [(k, 1)]
  | (a, v) :: rest, k =>
    if a = k then (a, v + 1) :: rest else (a, v) :: hashIncr rest k

/-- The local state at the start of `freqSorter`. -/
def initState : CountState := ⟨0, [], []⟩

/-- One iteration of the counting loop: increment `totalWordCount`, append
it to `uniqueWordCount` when the token is new, then bump the token's count. -/
def countStep (s : CountState) (stem : String) : CountState :=
  let twc := s.totalWordCount + 1
  { totalWordCount := twc
    stemHash := hashIncr s.stemHash stem
    uniqueWordCount :=
      if hashFind s.stemHash stem = none then s.uniqueWordCount ++ [twc]
      else s.uniqueWordCount }

/-- The whole counting loop over the token stream. -/
def countPass (tokens : List String) : CountState := tokens.foldl countStep initState

/-- The comparator `pairCompare` of the source: `a.second > b.second`. -/
def pairCompare (a b : String × Nat) : Bool := decide (a.2 > b.2)

/-- Insert an entry into a list already sorted by `pairCompare`. -/
def insertByFreq (p : String × Nat) : List (String × Nat) → List (String × Nat)
  | [] => [p]
  | q :: rest => if pairCompare p q then p :: q :: rest else q :: insertByFreq p rest

/-- The `sort(stemFreq.begin(), stemFreq.end(), pairCompare)` call: a sort of
the frequency-table entries by descending frequency. -/
def sortByFreq : List (String × Nat) → List (String × Nat)
  | [] => []
  | p :: rest => insertByFreq p (sortByFreq rest)

/-- First header row written by the report writer. -/
def rankedHeader : String := "\x22Stem\x22, \x22Frequency\x22, \x22Rank\x22, \x22Probability\x22"

/-- Second header row written by the report writer (with the source's
"World" typo). -/
def countHeader : String := "\x22Total World Count\x22, \x22Unique World Count\x22"

/-- The report written by `freqSorter`: the ranked header, up to 50 data rows
(token, frequency, rank `i+1`, probability `frequency / totalWordCount`),
the count header, and the rows pairing each first-seen position with its
unique-word ordinal. Probability is modelled as exact rational division. -/
structure Report where
  header1 : String
  dataRows : List (String × Nat × Nat × ℚ)
  header2 : String
  uniqueRows : List (Nat × Nat)
deriving DecidableEq

/-- Build the report from the final counting state, mirroring the output
section of `freqSorter` (lines 45-49 of the source). -/
def mkReport (s : CountState) : Report :=
  let stemFreq := sortByFreq s.stemHash
  { header1 := rankedHeader
    dataRows := ((stemFreq.take 50).enum).map
      (fun p => (p.2.1, p.2.2, p.1 + 1, (p.2.2 : ℚ) / (s.totalWordCount : ℚ)))
    header2 := countHeader
    uniqueRows := s.uniqueWordCount.enum.map (fun p => (p.2, p.1 + 1)) }

/-- Output file name: `fileName.substr(0, fileName.size()-4) + "_Output.csv"`. -/
def outputName (fileName : String) : String :=
  String.mk (fileName.data.take (fileName.data.length - 4)) ++ "_Output.csv"

/-- One `freqSorter(fileName)` call, as a pure function of the file system
`fs` (mapping a path to its contents): the output path and the report. -/
def runFile (fs : String → String) (fileName : String) : String × Report :=
  (outputName fileName, mkReport (countPass (tokenize (fs fileName))))

/-- The driver loop of `main`: process the arguments left to right,
accumulating the produced outputs. -/
def mainLoop (fs : String → String) :
    List String → List (String × Report) → List (String × Report)
  | [], acc => acc
  | a :: rest, acc => mainLoop fs rest (acc ++ [runFile fs a])

/-- The whole `main`: run `freqSorter` on each argument in order and
return 0. -/
def mainRun (fs : String → String) (args : List String) :
    List (String × Report) × Nat :=
  (mainLoop fs args [], 0)

/-! ## Helper lemmas about the counting loop -/

/-- Any property preserved by one loop iteration holds after the whole loop. -/
theorem foldl_countStep_inv (P : CountState → Prop)
    (hstep : ∀ s t, P s → P (countStep s t)) :
    ∀ (tokens : List String) (s : CountState), P s → P (tokens.foldl countStep s)
  | [], _, h => h
  | t :: ts, s, h => foldl_countStep_inv P hstep ts (countStep s t) (hstep s t h)

/-- The loop increments `totalWordCount` once per token. -/
theorem totalWordCount_foldl :
    ∀ (tokens : List String) (s : CountState),
      (tokens.foldl countStep s).totalWordCount = s.totalWordCount + tokens.length
  | [], s => by simp
  | t :: ts, s => by
    rw [List.foldl_cons, totalWordCount_foldl ts]
    simp [countStep]
    omega

/-- After the counting pass, `totalWordCount` is the number of tokens read. -/
theorem totalWordCount_countPass (tokens : List String) :
    (countPass tokens).totalWordCount = tokens.length := by
  have h := totalWordCount_foldl tokens initState
  simpa [countPass, initState] using h

/-- Incrementing a key raises the sum of the stored counts by exactly one. -/
theorem hashIncr_sum (m : List (String × Nat)) (k : String) :
    ((hashIncr m k).map Prod.snd).sum = (m.map Prod.snd).sum + 1 := by
  induction m with
  | nil => simp [hashIncr]
  | cons p rest ih =>
    obtain ⟨a, v⟩ := p
    by_cases h : a = k
    · subst h
      simp [hashIncr]
      omega
    · simp [hashIncr, h, ih]
      omega

/-- A key is absent from the table iff `hashFind` returns `none`. -/
theorem hashFind_eq_none_iff (m : List (String × Nat)) (k : String) :
    hashFind m k = none ↔ k ∉ m.map Prod.fst := by
  induction m with
  | nil => simp [hashFind]
  | cons p rest ih =>
    obtain ⟨a, v⟩ := p
    by_cases h : a = k
    · subst h
      simp [hashFind]
    · have h2 : k ≠ a := fun hk => h hk.symm
      simp [hashFind, h, h2, ih]

/-- Effect of `hashIncr` on the key list: an absent key is appended, a
present key leaves the key list unchanged. -/
theorem hashIncr_keys (m : List (String × Nat)) (k : String) :
    (hashIncr m k).map Prod.fst =
      if hashFind m k = none then m.map Prod.fst ++ [k] else m.map Prod.fst := by
  induction m with
  | nil => simp [hashIncr, hashFind]
  | cons p rest ih =>
    obtain ⟨a, v⟩ := p
    by_cases h : a = k
    · subst h
      simp [hashIncr, hashFind]
    · rw [show hashIncr ((a, v) :: rest) k = (a, v) :: hashIncr rest k by
          simp [hashIncr, h],
        show hashFind ((a, v) :: rest) k = hashFind rest k by simp [hashFind, h],
        List.map_cons, ih]
      split <;> rfl

/-- Effect of `hashIncr` on the number of entries. -/
theorem hashIncr_length (m : List (String × Nat)) (k : String) :
    (hashIncr m k).length = if hashFind m k = none then m.length + 1 else m.length := by
  induction m with
  | nil => simp [hashIncr, hashFind]
  | cons p rest ih =>
    obtain ⟨a, v⟩ := p
    by_cases h : a = k
    · subst h
      simp [hashIncr, hashFind]
    · rw [show hashIncr ((a, v) :: rest) k = (a, v) :: hashIncr rest k by
          simp [hashIncr, h],
        show hashFind ((a, v) :: rest) k = hashFind rest k by simp [hashFind, h],
        List.length_cons, ih]
      split <;> rfl

/-! ## C1 -/

/-- C1: for every input token sequence, after the counting pass the sum of
all counts stored in the frequency table equals `totalWordCount`. -/
theorem freq_sum_eq_totalWordCount (tokens : List String) :
    ((countPass tokens).stemHash.map Prod.snd).sum = (countPass tokens).totalWordCount := by
  have h := foldl_countStep_inv
    (fun s => (s.stemHash.map Prod.snd).sum = s.totalWordCount)
    (fun s t hs => by simp [countStep, hashIncr_sum, hs])
    tokens initState (by simp [initState])
  simpa [countPass] using h

/-! ## C7 -/

/-- C7: for every file name of length at least 4 (written as `p ++ t` with
`t` of length 4), the output path is the file name with its last 4
characters removed, followed by "_Output.csv", whatever those characters
are. -/
theorem outputName_strips_last_four (p t : String) (ht : t.length = 4) :
    outputName (p ++ t) = p ++ "_Output.csv" := by
  have hd : (p ++ t).data = p.data ++ t.data := String.data_append p t
  have hlen : t.data.length = 4 := ht
  unfold outputName
  rw [hd]
  have hcut : (p.data ++ t.data).length - 4 = p.data.length := by
    simp [List.length_append, hlen]
  rw [hcut, List.take_left]

/-- Concrete instance of the output-name rule: "notes.txt" maps to
"notes_Output.csv". -/
theorem outputName_strips_last_four_witness :
    outputName ("notes" ++ ".txt") = "notes" ++ "_Output.csv" :=
  outputName_strips_last_four "notes" ".txt" (by decide)

/-! ## C8 -/

/-- If the counting pass ends with `totalWordCount = 0` then no ranked data
row is emitted, so the probability division is never executed. -/
theorem zero_twc_dataRows_nil (tokens : List String)
    (h : (countPass tokens).totalWordCount = 0) :
    (mkReport (countPass tokens)).dataRows = [] := by
  have hlen := totalWordCount_countPass tokens
  rw [h] at hlen
  have hnil : tokens = [] := List.length_eq_zero.mp hlen.symm
  subst hnil
  rfl

/-- C8 counterexample: there is no input for which the ranked loop body
(and hence the division `frequency / totalWordCount`) is reached while
`totalWordCount = 0`. -/
theorem no_division_with_zero_total :
    ¬ ∃ tokens : List String,
      (countPass tokens).totalWordCount = 0 ∧
        (mkReport (countPass tokens)).dataRows ≠ [] := by
  rintro ⟨tokens, h0, hne⟩
  exact hne (zero_twc_dataRows_nil tokens h0)

/-- C8 amended: the division in the probability column is unguarded in the
source, but whenever `totalWordCount = 0` the ranked section is empty, so
the division by zero is never performed. -/
theorem zero_total_ranked_section_empty (tokens : List String)
    (h : (countPass tokens).totalWordCount = 0) :
    (mkReport (countPass tokens)).dataRows = [] :=
  zero_twc_dataRows_nil tokens h

/-- Concrete instance of the amended C8 at the empty token stream. -/
theorem zero_total_ranked_section_empty_witness :
    (mkReport (countPass [])).dataRows = [] :=
  zero_total_ranked_section_empty [] (by decide)

/-! ## C9 -/

/-- The driver loop appends one pipeline result per argument, in order. -/
theorem mainLoop_eq :
    ∀ (args : List String) (fs : String → String) (acc : List (String × Report)),
      mainLoop fs args acc = acc ++ args.map (runFile fs)
  | [], fs, acc => by simp [mainLoop]
  | a :: rest, fs, acc => by
    simp only [mainLoop, List.map_cons]
    rw [mainLoop_eq rest]
    simp

/-- C9: `main` runs the full pipeline once per command-line argument, in
argument order, each output depending only on that argument and the file
system, and always returns exit code 0. -/
theorem main_runs_pipeline_per_arg (fs : String → String) (args : List String) :
    mainRun fs args = (args.map (runFile fs), 0) := by
  simp [mainRun, mainLoop_eq]

/-! ## Helper lemmas about the descending-frequency sort -/

/-- Membership in an insertion. -/
theorem mem_insertByFreq (p x : String × Nat) :
    ∀ l : List (String × Nat), x ∈ insertByFreq p l ↔ x = p ∨ x ∈ l
  | [] => by simp [insertByFreq]
  | q :: rest => by
    by_cases h : pairCompare p q
    · simp [insertByFreq, h]
    · simp [insertByFreq, h, mem_insertByFreq p x rest]
      tauto

/-- Insertion preserves the descending-frequency ordering. -/
theorem pairwise_insertByFreq (p : String × Nat) :
    ∀ l : List (String × Nat), l.Pairwise (fun a b => b.2 ≤ a.2) →
      (insertByFreq p l).Pairwise (fun a b => b.2 ≤ a.2)
  | [], _ => by simp [insertByFreq]
  | q :: rest, hl => by
    rw [List.pairwise_cons] at hl
    obtain ⟨hq, hrest⟩ := hl
    by_cases h : pairCompare p q
    · have hpq : q.2 ≤ p.2 := le_of_lt (by simpa [pairCompare] using h)
      rw [show insertByFreq p (q :: rest) = p :: q :: rest by simp [insertByFreq, h]]
      rw [List.pairwise_cons]
      refine ⟨?_, List.pairwise_cons.mpr ⟨hq, hrest⟩⟩
      intro b hb
      rcases List.mem_cons.mp hb with hb | hb
      · exact hb ▸ hpq
      · exact le_trans (hq b hb) hpq
    · have hqp : p.2 ≤ q.2 := Nat.le_of_not_lt (by simpa [pairCompare] using h)
      rw [show insertByFreq p (q :: rest) = q :: insertByFreq p rest by
        simp [insertByFreq, h]]
      rw [List.pairwise_cons]
      refine ⟨?_, pairwise_insertByFreq p rest hrest⟩
      intro b hb
      rcases (mem_insertByFreq p b rest).mp hb with hb | hb
      · exact hb ▸ hqp
      · exact hq b hb

/-- The ranker output is sorted by non-increasing frequency. -/
theorem sortByFreq_pairwise :
    ∀ m : List (String × Nat), (sortByFreq m).Pairwise (fun a b => b.2 ≤ a.2)
  | [] => by simp [sortByFreq]
  | p :: rest => pairwise_insertByFreq p _ (sortByFreq_pairwise rest)

/-- Insertion produces a permutation of consing. -/
theorem insertByFreq_perm (p : String × Nat) :
    ∀ l : List (String × Nat), (insertByFreq p l).Perm (p :: l)
  | [] => List.Perm.refl _
  | q :: rest => by
    by_cases h : pairCompare p q
    · rw [show insertByFreq p (q :: rest) = p :: q :: rest by simp [insertByFreq, h]]
    · rw [show insertByFreq p (q :: rest) = q :: insertByFreq p rest by
        simp [insertByFreq, h]]
      exact ((insertByFreq_perm p rest).cons q).trans (List.Perm.swap p q rest)

/-- The ranker output is a permutation of the frequency-table entries. -/
theorem sortByFreq_perm : ∀ m : List (String × Nat), (sortByFreq m).Perm m
  | [] => List.Perm.refl _
  | p :: rest =>
    (insertByFreq_perm p (sortByFreq rest)).trans ((sortByFreq_perm rest).cons p)

/-- The rows of the ranked section, elementwise: the row at position `k` is
the `k`-th entry of the truncated sorted list, with rank `k + 1` and
probability `frequency / totalWordCount`. -/
theorem dataRows_get (s : CountState) (k : Nat)
    (hk : k < (mkReport s).dataRows.length)
    (hk2 : k < ((sortByFreq s.stemHash).take 50).length) :
    (mkReport s).dataRows.get ⟨k, hk⟩ =
      ((((sortByFreq s.stemHash).take 50).get ⟨k, hk2⟩).1,
       (((sortByFreq s.stemHash).take 50).get ⟨k, hk2⟩).2,
       k + 1,
       ((((sortByFreq s.stemHash).take 50).get ⟨k, hk2⟩).2 : ℚ) /
         (s.totalWordCount : ℚ)) := by
  simp [mkReport, List.get_eq_getElem, List.getElem_map, List.getElem_enum]

/-- The ranked section has as many rows as the truncated sorted list. -/
theorem dataRows_length (s : CountState) :
    (mkReport s).dataRows.length = ((sortByFreq s.stemHash).take 50).length := by
  simp [mkReport, List.enum_length]

/-! ## C4 -/

/-- C4: for every frequency table, the ranker output is sorted by
non-increasing frequency, the emitted data rows have non-increasing
frequencies, and the row at 0-based position `i` carries rank `i + 1`. -/
theorem ranker_desc_and_ranks (s : CountState) :
    (sortByFreq s.stemHash).Pairwise (fun a b => b.2 ≤ a.2) ∧
    (∀ (i j : Nat) (hi : i < (mkReport s).dataRows.length)
        (hj : j < (mkReport s).dataRows.length), i ≤ j →
        ((mkReport s).dataRows.get ⟨j, hj⟩).2.1 ≤
          ((mkReport s).dataRows.get ⟨i, hi⟩).2.1) ∧
    (∀ (i : Nat) (hi : i < (mkReport s).dataRows.length),
        ((mkReport s).dataRows.get ⟨i, hi⟩).2.2.1 = i + 1) := by
  have hlen := dataRows_length s
  have hpw : ((sortByFreq s.stemHash).take 50).Pairwise (fun a b => b.2 ≤ a.2) :=
    List.Pairwise.sublist (List.take_sublist 50 _) (sortByFreq_pairwise s.stemHash)
  refine ⟨sortByFreq_pairwise s.stemHash, ?_, ?_⟩
  · intro i j hi hj hij
    have hi2 : i < ((sortByFreq s.stemHash).take 50).length := hlen ▸ hi
    have hj2 : j < ((sortByFreq s.stemHash).take 50).length := hlen ▸ hj
    rw [dataRows_get s i hi hi2, dataRows_get s j hj hj2]
    rcases Nat.lt_or_ge i j with hlt | hge
    · exact List.pairwise_iff_getElem.mp hpw i j hi2 hj2 hlt
    · have : i = j := Nat.le_antisymm hij hge
      subst this
      exact le_refl _
  · intro i hi
    have hi2 : i < ((sortByFreq s.stemHash).take 50).length := hlen ▸ hi
    rw [dataRows_get s i hi hi2]

/-- Concrete instance of C4 on the table {b ↦ 1, a ↦ 2}: the second row's
frequency is at most the first row's, and the first row carries rank 1. -/
theorem ranker_desc_and_ranks_witness :
    ((mkReport ⟨3, [("b", 1), ("a", 2)], [1, 2]⟩).dataRows.get ⟨1, by decide⟩).2.1 ≤
      ((mkReport ⟨3, [("b", 1), ("a", 2)], [1, 2]⟩).dataRows.get ⟨0, by decide⟩).2.1 ∧
    ((mkReport ⟨3, [("b", 1), ("a", 2)], [1, 2]⟩).dataRows.get ⟨0, by decide⟩).2.2.1 = 0 + 1 :=
  ⟨(ranker_desc_and_ranks ⟨3, [("b", 1), ("a", 2)], [1, 2]⟩).2.1 0 1
      (by decide) (by decide) (by decide),
   (ranker_desc_and_ranks ⟨3, [("b", 1), ("a", 2)], [1, 2]⟩).2.2 0 (by decide)⟩

/-! ## Helper lemmas about the set of keys of the frequency table -/

/-- Effect of one loop iteration on the key list of the table. -/
theorem keys_countStep (s : CountState) (t : String) :
    (countStep s t).stemHash.map Prod.fst =
      if t ∈ s.stemHash.map Prod.fst then s.stemHash.map Prod.fst
      else s.stemHash.map Prod.fst ++ [t] := by
  have hiff := hashFind_eq_none_iff s.stemHash t
  by_cases h : t ∈ s.stemHash.map Prod.fst
  · have hf : ¬ hashFind s.stemHash t = none := fun hn => (hiff.mp hn) h
    simp [countStep, hashIncr_keys, hf, h]
  · have hf : hashFind s.stemHash t = none := hiff.mpr h
    simp [countStep, hashIncr_keys, hf, h]

/-- A token is a key of the final table iff it was a key initially or
occurs in the remaining input. -/
theorem mem_keys_foldl :
    ∀ (ts : List String) (s : CountState) (k : String),
      k ∈ ((ts.foldl countStep s).stemHash.map Prod.fst) ↔
        k ∈ s.stemHash.map Prod.fst ∨ k ∈ ts
  | [], s, k => by simp
  | t :: ts, s, k => by
    rw [List.foldl_cons, mem_keys_foldl ts, keys_countStep]
    by_cases h : t ∈ s.stemHash.map Prod.fst
    · simp only [if_pos h, List.mem_cons]
      constructor
      · rintro (hk | hk)
        · exact Or.inl hk
        · exact Or.inr (Or.inr hk)
      · rintro (hk | hk | hk)
        · exact Or.inl hk
        · exact Or.inl (hk ▸ h)
        · exact Or.inr hk
    · simp only [if_neg h, List.mem_append, List.mem_singleton, List.mem_cons]
      tauto

/-- The key list of the table stays duplicate-free through the loop. -/
theorem nodup_keys_foldl :
    ∀ (ts : List String) (s : CountState),
      (s.stemHash.map Prod.fst).Nodup →
        ((ts.foldl countStep s).stemHash.map Prod.fst).Nodup
  | [], _, h => h
  | t :: ts, s, h => by
    rw [List.foldl_cons]
    apply nodup_keys_foldl ts
    rw [keys_countStep]
    by_cases ht : t ∈ s.stemHash.map Prod.fst
    · simpa [ht] using h
    · rw [if_neg ht]
      simp [List.nodup_append, h, ht]

/-- After the counting pass, the table has one entry per distinct token. -/
theorem stemHash_length_dedup (tokens : List String) :
    (countPass tokens).stemHash.length = tokens.dedup.length := by
  have hnd : ((countPass tokens).stemHash.map Prod.fst).Nodup := by
    have h := nodup_keys_foldl tokens initState (by simp [initState])
    simpa [countPass] using h
  have hmem : ∀ k, k ∈ (countPass tokens).stemHash.map Prod.fst ↔ k ∈ tokens := by
    intro k
    have h := mem_keys_foldl tokens initState k
    simpa [countPass, initState] using h
  have hperm : ((countPass tokens).stemHash.map Prod.fst).Perm tokens.dedup := by
    rw [List.perm_ext_iff_of_nodup hnd (List.nodup_dedup tokens)]
    intro a
    rw [hmem a, List.mem_dedup]
  have h := hperm.length_eq
  simpa using h

/-- The positions vector and the table grow in lockstep: one new position
per new key. -/
theorem uwc_length_eq_stemHash_length (tokens : List String) :
    (countPass tokens).uniqueWordCount.length = (countPass tokens).stemHash.length := by
  have h := foldl_countStep_inv
    (fun s => s.uniqueWordCount.length = s.stemHash.length)
    (fun s t hs => by
      by_cases hf : hashFind s.stemHash t = none
      · simp [countStep, hf, hashIncr_length, hs]
      · simp [countStep, hf, hashIncr_length, hs])
    tokens initState (by simp [initState])
  simpa [countPass] using h

/-! ## C2 -/

/-- C2: for every input token sequence, the length of UniqueWordPositions
equals the number of distinct tokens of the input, which also equals the
number of keys of the frequency table. -/
theorem unique_positions_count_distinct (tokens : List String) :
    (countPass tokens).uniqueWordCount.length = tokens.dedup.length ∧
    (countPass tokens).stemHash.length = tokens.dedup.length :=
  ⟨(uwc_length_eq_stemHash_length tokens).trans (stemHash_length_dedup tokens),
   stemHash_length_dedup tokens⟩

/-! ## C5 -/

/-- C5: the ranked section contains exactly min(50, number of distinct
tokens) data rows; in particular an input with 100 distinct tokens yields
exactly 50 data rows. -/
theorem ranked_row_count :
    (∀ tokens : List String,
      (mkReport (countPass tokens)).dataRows.length = min 50 tokens.dedup.length) ∧
    (mkReport (countPass ((List.range 100).map toString))).dataRows.length = 50 := by
  constructor
  · intro tokens
    rw [dataRows_length, List.length_take, (sortByFreq_perm _).length_eq,
      stemHash_length_dedup tokens]
  · decide

/-! ## Helper lemmas for the positions-vector invariant -/

/-- One loop iteration preserves the combined invariant of the positions
vector: strictly increasing, entries between 1 and `totalWordCount`, one
entry per table key, empty only before the first token, and first entry 1. -/
theorem countStep_uwc_inv (s : CountState) (t : String)
    (h : s.uniqueWordCount.Pairwise (· < ·) ∧
      (∀ x ∈ s.uniqueWordCount, 1 ≤ x ∧ x ≤ s.totalWordCount) ∧
      s.uniqueWordCount.length = s.stemHash.length ∧
      (s.uniqueWordCount = [] → s.totalWordCount = 0) ∧
      (s.uniqueWordCount ≠ [] → s.uniqueWordCount.head? = some 1)) :
    (countStep s t).uniqueWordCount.Pairwise (· < ·) ∧
    (∀ x ∈ (countStep s t).uniqueWordCount,
      1 ≤ x ∧ x ≤ (countStep s t).totalWordCount) ∧
    (countStep s t).uniqueWordCount.length = (countStep s t).stemHash.length ∧
    ((countStep s t).uniqueWordCount = [] → (countStep s t).totalWordCount = 0) ∧
    ((countStep s t).uniqueWordCount ≠ [] →
      (countStep s t).uniqueWordCount.head? = some 1) := by
  obtain ⟨hpw, hbnd, hlen, hemp, hhead⟩ := h
  have htwc : (countStep s t).totalWordCount = s.totalWordCount + 1 := by
    simp [countStep]
  by_cases hf : hashFind s.stemHash t = none
  · have huwc : (countStep s t).uniqueWordCount
        = s.uniqueWordCount ++ [s.totalWordCount + 1] := by
      simp [countStep, hf]
    have hsh : (countStep s t).stemHash.length = s.stemHash.length + 1 := by
      simp [countStep, hashIncr_length, hf]
    rw [huwc, htwc, hsh]
    refine ⟨?_, ?_, ?_, ?_, ?_⟩
    · rw [List.pairwise_append]
      refine ⟨hpw, by simp, ?_⟩
      intro a ha b hb
      rw [List.mem_singleton] at hb
      subst hb
      exact Nat.lt_succ_of_le (hbnd a ha).2
    · intro x hx
      rcases List.mem_append.mp hx with hx | hx
      · obtain ⟨h1, h2⟩ := hbnd x hx
        exact ⟨h1, Nat.le_succ_of_le h2⟩
      · rw [List.mem_singleton] at hx
        subst hx
        exact ⟨Nat.succ_le_succ (Nat.zero_le _), le_refl _⟩
    · rw [List.length_append, hlen]
      simp
    · intro hx
      exact absurd hx (by simp)
    · intro _
      rcases heq : s.uniqueWordCount with _ | ⟨y, ys⟩
      · have h0 : s.totalWordCount = 0 := hemp heq
        simp [h0]
      · have hh := hhead (by simp [heq])
        rw [heq] at hh
        rw [List.cons_append]
        simpa using hh
  · have huwc : (countStep s t).uniqueWordCount = s.uniqueWordCount := by
      simp [countStep, hf]
    have hsh : (countStep s t).stemHash.length = s.stemHash.length := by
      simp [countStep, hashIncr_length, hf]
    rw [huwc, htwc, hsh]
    refine ⟨hpw, ?_, hlen, ?_, hhead⟩
    · intro x hx
      obtain ⟨h1, h2⟩ := hbnd x hx
      exact ⟨h1, Nat.le_succ_of_le h2⟩
    · intro hx
      exfalso
      have h0 : s.stemHash.length = 0 := by
        rw [← hlen, hx]
        rfl
      have hn : s.stemHash = [] := List.length_eq_zero.mp h0
      rw [hn] at hf
      exact hf rfl

/-- The combined invariant of the positions vector after the whole pass. -/
theorem uwc_invariant_countPass (tokens : List String) :
    (countPass tokens).uniqueWordCount.Pairwise (· < ·) ∧
    (∀ x ∈ (countPass tokens).uniqueWordCount,
      1 ≤ x ∧ x ≤ (countPass tokens).totalWordCount) ∧
    (countPass tokens).uniqueWordCount.length = (countPass tokens).stemHash.length ∧
    ((countPass tokens).uniqueWordCount = [] → (countPass tokens).totalWordCount = 0) ∧
    ((countPass tokens).uniqueWordCount ≠ [] →
      (countPass tokens).uniqueWordCount.head? = some 1) := by
  have h := foldl_countStep_inv
    (fun s =>
      s.uniqueWordCount.Pairwise (· < ·) ∧
      (∀ x ∈ s.uniqueWordCount, 1 ≤ x ∧ x ≤ s.totalWordCount) ∧
      s.uniqueWordCount.length = s.stemHash.length ∧
      (s.uniqueWordCount = [] → s.totalWordCount = 0) ∧
      (s.uniqueWordCount ≠ [] → s.uniqueWordCount.head? = some 1))
    countStep_uwc_inv tokens initState (by simp [initState])
  simpa [countPass] using h

/-! ## C10 -/

/-- C10: for every input, UniqueWordPositions is strictly increasing, its
first element (when it is nonempty) is 1, and every element lies between 1
and the final `totalWordCount`. -/
theorem unique_positions_monotone (tokens : List String) :
    (countPass tokens).uniqueWordCount.Pairwise (· < ·) ∧
    ((countPass tokens).uniqueWordCount ≠ [] →
      (countPass tokens).uniqueWordCount.head? = some 1) ∧
    ∀ x ∈ (countPass tokens).uniqueWordCount,
      1 ≤ x ∧ x ≤ (countPass tokens).totalWordCount := by
  obtain ⟨h1, h2, _, _, h5⟩ := uwc_invariant_countPass tokens
  exact ⟨h1, h5, h2⟩

/-- Concrete instance of C10 on the input ["a", "b"]: the first recorded
position is 1, and position 2 lies between 1 and the total word count. -/
theorem unique_positions_monotone_witness :
    (countPass ["a", "b"]).uniqueWordCount.head? = some 1 ∧
    (1 ≤ 2 ∧ 2 ≤ (countPass ["a", "b"]).totalWordCount) :=
  ⟨(unique_positions_monotone ["a", "b"]).2.1 (by decide),
   (unique_positions_monotone ["a", "b"]).2.2 2 (by decide)⟩

/-! ## C6 -/

/-- On an all-whitespace character stream the extraction loop yields no
token. -/
theorem tokensAux_all_whitespace :
    ∀ cs : List Char, (∀ c ∈ cs, c.isWhitespace = true) → tokensAux cs [] = []
  | [], _ => rfl
  | c :: cs, h => by
    have hc : c.isWhitespace = true := h c (by simp)
    have ih := tokensAux_all_whitespace cs (fun x hx => h x (by simp [hx]))
    simp [tokensAux, hc, flushTok, ih]

/-- C6: for an empty input file — and identically for any whitespace-only
input file — the pass yields no tokens, `totalWordCount = 0`, an empty
frequency table and empty UniqueWordPositions, and the produced report
consists of the two header rows with no data rows. -/
theorem empty_or_whitespace_report (s : String)
    (hws : ∀ c ∈ s.data, c.isWhitespace = true) :
    tokenize s = [] ∧
    countPass (tokenize s) = initState ∧
    mkReport (countPass (tokenize s)) = ⟨rankedHeader, [], countHeader, []⟩ := by
  have ht : tokenize s = [] := tokensAux_all_whitespace s.data hws
  rw [ht]
  exact ⟨rfl, rfl, rfl⟩

/-- Concrete instance of C6 on a whitespace-only file (space, tab,
newline); the empty file is the instance at the empty string. -/
theorem empty_or_whitespace_report_witness :
    tokenize " \t\n" = [] ∧
    countPass (tokenize " \t\n") = initState ∧
    mkReport (countPass (tokenize " \t\n")) = ⟨rankedHeader, [], countHeader, []⟩ :=
  empty_or_whitespace_report " \t\n" (by decide)

/-! ## C3 -/

/-- C3 counterexample: on the input "a a b" the positions vector is not
[1, 2] as the specification's example states (the token "b" is first seen
at overall word index 3, not 2). -/
theorem counting_aab_positions_ne_spec :
    ¬ ((countPass ["a", "a", "b"]).uniqueWordCount = [1, 2]) := by
  decide

/-- C3 amended: on the input "a a b" the pass yields the frequency table
{a ↦ 2, b ↦ 1}, `totalWordCount = 3`, UniqueWordPositions = [1, 3], and the
first ranked data row is ("a", 2, rank 1, probability 2/3). -/
theorem counting_aab :
    (countPass ["a", "a", "b"]).totalWordCount = 3 ∧
    hashFind (countPass ["a", "a", "b"]).stemHash "a" = some 2 ∧
    hashFind (countPass ["a", "a", "b"]).stemHash "b" = some 1 ∧
    (countPass ["a", "a", "b"]).stemHash.length = 2 ∧
    (countPass ["a", "a", "b"]).uniqueWordCount = [1, 3] ∧
    (mkReport (countPass ["a", "a", "b"])).dataRows.head? =
      some ("a", 2, 1, (2 : ℚ) / 3) := by
  refine ⟨by decide, by decide, by decide, by decide, by decide, ?_⟩
  have h : (mkReport (countPass ["a", "a", "b"])).dataRows.head? =
      some ("a", 2, 1, ((2 : Nat) : ℚ) / ((3 : Nat) : ℚ)) := rfl
  rw [h]
  norm_num

end TextAnalyzer
